import Mathlib

/-!
# Verification of an LRU range-sum cache and a sliding-window rate limiter

Shallow embedding of the two Python modules of the repository:

* `task1_lru_cache.py` — an `LRUCache` built on `OrderedDict` plus the
  range-sum helpers `range_sum_no_cache` / `range_sum_with_cache`.
* `task2_rate_limiter.py` — a `SlidingWindowRateLimiter` keeping, per user,
  the list of message timestamps inside a sliding time window.

Modelling conventions:

* An `OrderedDict` (respectively a `defaultdict(list)`) is modelled as an
  association list kept in insertion order, with unique keys in every state
  reachable through the operations; the head of the list is the
  least-recently-used entry, the tail the most-recently-used one.
* Python `None` for cached values is modelled by `Option`: the value type of
  the range-sum cache is `Option Int`, with `none` playing the role of
  `None`.  `LRUCache.get` returns `none` for a missing key, so the value a
  Python caller observes is `(c.get k).1.join` (a stored `None` and an
  absent key are both observed as `None`).
* `OrderedDict.popitem(last=False)` on an empty dictionary raises `KeyError`;
  therefore `LRUCache.put` is `Option`-valued, `none` being the error case.
  Likewise Python's `min([])` raises, so `time_until_next_allowed` is
  `Option`-valued.
* Timestamps (Python floats produced by `time.time()`) are modelled as `ℚ`.
* Every Python method reads the clock itself; each `time.time()` read is an
  explicit argument of the corresponding Lean function.  `record_message`
  performs two reads (one inside `can_send_message`, one before appending),
  hence takes two time arguments.
-/

/-- Model of `LRUCache` from `task1_lru_cache.py`: `capacity` plus an `OrderedDict`
modelled as an association list in recency order (head = least recently
used). `capacity` is an `Int` because the constructor accepts any integer. -/
structure LRUCache (κ α : Type) where
  capacity : Int
  cache : List (κ × α)
deriving DecidableEq

/-- First value stored under key `k`, i.e. `self.cache[key]` /
`key in self.cache` lookups on the ordered dictionary. -/
def lookupList {κ α : Type} [DecidableEq κ] (l : List (κ × α)) (k : κ) : Option α :=
  (l.find? fun e => decide (e.1 = k)).map Prod.snd

/-- Python `del self.cache[key]`: remove the entry with key `k`. -/
def delKey {κ α : Type} [DecidableEq κ] (l : List (κ × α)) (k : κ) : List (κ × α) :=
  l.filter fun e => !decide (e.1 = k)

/-- Model of `LRUCache.__init__`: stores the capacity unchanged (the source performs
no validation) and starts with an empty `OrderedDict`. -/
def LRUCache.init {κ α : Type} (capacity : Int) : LRUCache κ α :=
  ⟨capacity, []⟩

/-- Model of `LRUCache.get`: on a miss return `None` and leave the state unchanged;
on a hit, `move_to_end` the entry and return its value. -/
def LRUCache.get {κ α : Type} [DecidableEq κ] (c : LRUCache κ α) (k : κ) :
    Option α × LRUCache κ α :=
  match lookupList c.cache k with
  | none => (none, c)
  | some v => (some v, ⟨c.capacity, delKey c.cache k ++ [(k, v)]⟩)

/-- Model of `LRUCache.put`: if the key exists, `move_to_end` and overwrite its value;
otherwise, if `len(self.cache) >= self.capacity`, `popitem(last=False)` drops
the least-recently-used entry (raising `KeyError`, modelled by `none`, when
the dictionary is empty — reachable only for `capacity ≤ 0`); finally the
assignment `self.cache[key] = value` appends the new entry at the tail. -/
def LRUCache.put {κ α : Type} [DecidableEq κ] (c : LRUCache κ α) (k : κ) (v : α) :
    Option (LRUCache κ α) :=
  if (lookupList c.cache k).isSome then
    some ⟨c.capacity, delKey c.cache k ++ [(k, v)]⟩
  else if (c.cache.length : Int) ≥ c.capacity then
    match c.cache with
    | [] => none
    | _ :: rest => some ⟨c.capacity, rest ++ [(k, v)]⟩
  else
    some ⟨c.capacity, c.cache ++ [(k, v)]⟩

/-- Model of `LRUCache.__contains__`: membership test, no recency side effect. -/
def LRUCache.containsKey {κ α : Type} [DecidableEq κ] (c : LRUCache κ α) (k : κ) : Bool :=
  (lookupList c.cache k).isSome

/-- Model of `LRUCache.__len__`. -/
def LRUCache.size {κ α : Type} (c : LRUCache κ α) : Nat :=
  c.cache.length

/-- Model of `LRUCache.invalidate`: collect `keys_to_remove = [key for key in
self.cache if predicate(key)]`, then delete them one by one. -/
def LRUCache.invalidate {κ α : Type} [DecidableEq κ] (c : LRUCache κ α) (p : κ → Bool) :
    LRUCache κ α :=
  ⟨c.capacity, List.foldl delKey c.cache ((c.cache.map Prod.fst).filter p)⟩

/-- Model of `range_sum_no_cache`: `sum(array[L:R+1])` for `0 ≤ L ≤ R`. -/
def range_sum_no_cache (array : List Int) (L R : Nat) : Int :=
  ((array.drop L).take (R + 1 - L)).sum

/-- The cache used by task 1: keys are `(L, R)` pairs, values are Python
objects that may be `None`, hence `Option Int`. -/
abbrev RangeCache := LRUCache (Nat × Nat) (Option Int)

/-- Model of `range_sum_with_cache`: look the key up (`cache.get`), treat a `None`
result — missing key or stored `None`, Python cannot tell them apart, hence
the `Option.join` — as a miss, compute `sum(array[L:R+1])`, store and return
it.  `Option`-valued because `put` can fail for `capacity ≤ 0`. -/
def range_sum_with_cache (array : List Int) (L R : Nat) (cache : RangeCache) :
    Option (Int × RangeCache) :=
  let r := cache.get (L, R)
  match r.1.join with
  | some v => some (v, r.2)
  | none =>
    let result := ((array.drop L).take (R + 1 - L)).sum
    match r.2.put (L, R) (some result) with
    | none => none
    | some c₂ => some (result, c₂)

/-- Run a list of `(L, R)` queries through `range_sum_with_cache`, threading
the cache, and collect the returned sums. -/
def runQueries (array : List Int) : List (Nat × Nat) → RangeCache →
    Option (List Int × RangeCache)
  | [], c => some ([], c)
  | q :: qs, c =>
    match range_sum_with_cache array q.1 q.2 c with
    | none => none
    | some (v, c₂) =>
      match runQueries array qs c₂ with
      | none => none
      | some (vs, c₃) => some (v :: vs, c₃)

/-- One client call against an `LRUCache`. -/
inductive CacheOp (κ α : Type) where
  | getOp : κ → CacheOp κ α
  | putOp : κ → α → CacheOp κ α
  | invalidateOp : (κ → Bool) → CacheOp κ α

/-- Effect of one call on the cache state. -/
def applyCacheOp {κ α : Type} [DecidableEq κ] (c : LRUCache κ α) :
    CacheOp κ α → Option (LRUCache κ α)
  | .getOp k => some (c.get k).2
  | .putOp k v => c.put k v
  | .invalidateOp p => some (c.invalidate p)

/-- Run a sequence of cache calls from a given state. -/
def runCacheOps {κ α : Type} [DecidableEq κ] :
    List (CacheOp κ α) → LRUCache κ α → Option (LRUCache κ α)
  | [], c => some c
  | op :: ops, c =>
    match applyCacheOp c op with
    | none => none
    | some c₂ => runCacheOps ops c₂

/-- Model of `SlidingWindowRateLimiter` from `task2_rate_limiter.py`: the policy fields
and the `defaultdict(list)` mapping each user to its timestamp list,
modelled as an association list (a user absent from the list has the default
empty timestamp list). -/
structure SlidingWindowRateLimiter where
  window_size : ℚ
  max_messages : Int
  user_messages : List (String × List ℚ)
deriving DecidableEq

/-- Model of `SlidingWindowRateLimiter.__init__`: stores both parameters unchanged
(the source performs no validation) and starts with an empty dictionary. -/
def SlidingWindowRateLimiter.init (window_size : ℚ) (max_messages : Int) :
    SlidingWindowRateLimiter :=
  ⟨window_size, max_messages, []⟩

/-- Read of `self.user_messages[user_id]` on the `defaultdict`: the stored list,
or `[]` when the user has no entry. -/
def getMsgs (s : List (String × List ℚ)) (u : String) : List ℚ :=
  ((s.find? fun e => decide (e.1 = u)).map Prod.snd).getD []

/-- Assignment `self.user_messages[user_id] = l`: dictionary assignment, replacing the
existing entry in place or appending a fresh one. -/
def setMsgs : List (String × List ℚ) → String → List ℚ → List (String × List ℚ)
  | [], u, l => [(u, l)]
  | e :: rest, u, l => if e.1 = u then (u, l) :: rest else e :: setMsgs rest u l

/-- Model of `_clean_old_messages`: keep only the timestamps strictly greater than
`current_time - window_size`. -/
def clean_old_messages (st : SlidingWindowRateLimiter) (user_id : String)
    (current_time : ℚ) : SlidingWindowRateLimiter :=
  { st with
    user_messages := setMsgs st.user_messages user_id
      ((getMsgs st.user_messages user_id).filter
        fun timestamp => decide (timestamp > current_time - st.window_size)) }

/-- Model of `can_send_message`: clean the user's list at the current time, then
report whether the retained count is strictly below `max_messages`.  The
mutated state is returned alongside the Boolean. -/
def can_send_message (st : SlidingWindowRateLimiter) (user_id : String)
    (current_time : ℚ) : Bool × SlidingWindowRateLimiter :=
  let st₂ := clean_old_messages st user_id current_time
  (decide (((getMsgs st₂.user_messages user_id).length : Int) < st₂.max_messages), st₂)

/-- Model of `record_message`: call `can_send_message` (which reads the clock, first
argument `t₁`); on refusal return `False`; otherwise read the clock again
(second argument `t₂`), append that timestamp and return `True`. -/
def record_message (st : SlidingWindowRateLimiter) (user_id : String)
    (t₁ t₂ : ℚ) : Bool × SlidingWindowRateLimiter :=
  let r := can_send_message st user_id t₁
  if r.1 then
    (true, { r.2 with
      user_messages := setMsgs r.2.user_messages user_id
        (getMsgs r.2.user_messages user_id ++ [t₂]) })
  else
    (false, r.2)

/-- Python's `min` on a list of timestamps; `none` models the `ValueError`
raised on an empty list. -/
def pyMin : List ℚ → Option ℚ
  | [] => none
  | x :: xs => some (xs.foldl min x)

/-- Model of `time_until_next_allowed`: clean, return `0.0` when under the limit,
otherwise `max(0.0, oldest + window_size - current_time)` where `oldest` is
the minimum retained timestamp (`none` models `min([])` raising, reachable
only for `max_messages ≤ 0`). -/
def time_until_next_allowed (st : SlidingWindowRateLimiter) (user_id : String)
    (current_time : ℚ) : Option (ℚ × SlidingWindowRateLimiter) :=
  let st₂ := clean_old_messages st user_id current_time
  if ((getMsgs st₂.user_messages user_id).length : Int) < st₂.max_messages then
    some (0, st₂)
  else
    match pyMin (getMsgs st₂.user_messages user_id) with
    | none => none
    | some oldest => some (max 0 (oldest + st₂.window_size - current_time), st₂)

/-- Model of `get_message_count`: clean, then return the retained count. -/
def get_message_count (st : SlidingWindowRateLimiter) (user_id : String)
    (current_time : ℚ) : Nat × SlidingWindowRateLimiter :=
  let st₂ := clean_old_messages st user_id current_time
  ((getMsgs st₂.user_messages user_id).length, st₂)

/-- One client call against the rate limiter, together with the clock
reading(s) that call performs (`recordOp` reads the clock twice). -/
inductive LimiterOp where
  | canSendOp : String → ℚ → LimiterOp
  | recordOp : String → ℚ → ℚ → LimiterOp
  | timeUntilOp : String → ℚ → LimiterOp
  | getCountOp : String → ℚ → LimiterOp

/-- Effect of one call on the limiter state. -/
def applyLimiterOp (st : SlidingWindowRateLimiter) :
    LimiterOp → Option SlidingWindowRateLimiter
  | .canSendOp u t => some (can_send_message st u t).2
  | .recordOp u t₁ t₂ => some (record_message st u t₁ t₂).2
  | .timeUntilOp u t => (time_until_next_allowed st u t).map Prod.snd
  | .getCountOp u t => some (get_message_count st u t).2

/-- Run a sequence of limiter calls from a given state. -/
def runLimiterOps : List LimiterOp → SlidingWindowRateLimiter →
    Option SlidingWindowRateLimiter
  | [], st => some st
  | op :: ops, st =>
    match applyLimiterOp st op with
    | none => none
    | some st₂ => runLimiterOps ops st₂

section CacheLemmas

variable {κ α : Type} [DecidableEq κ]

theorem lookupList_nil (k : κ) : lookupList ([] : List (κ × α)) k = none := rfl

theorem lookupList_cons (e : κ × α) (l : List (κ × α)) (k : κ) :
    lookupList (e :: l) k = if e.1 = k then some e.2 else lookupList l k := by
  by_cases h : e.1 = k <;> simp [lookupList, List.find?_cons, h]

theorem lookupList_eq_none_iff (l : List (κ × α)) (k : κ) :
    lookupList l k = none ↔ ∀ e ∈ l, e.1 ≠ k := by
  simp [lookupList, List.find?_eq_none]

theorem lookupList_isSome_iff (l : List (κ × α)) (k : κ) :
    (lookupList l k).isSome = true ↔ ∃ e ∈ l, e.1 = k := by
  induction l with
  | nil => simp [lookupList]
  | cons e l ih =>
    rw [lookupList_cons]
    by_cases h : e.1 = k <;> simp [h, ih]

theorem lookupList_mem {l : List (κ × α)} {k : κ} {v : α}
    (h : lookupList l k = some v) : (k, v) ∈ l := by
  induction l with
  | nil => simp [lookupList] at h
  | cons e l ih =>
    rw [lookupList_cons] at h
    by_cases he : e.1 = k
    · simp only [he, if_pos rfl] at h
      obtain ⟨k₁, v₁⟩ := e
      cases he
      cases h
      exact List.mem_cons_self _ _
    · rw [if_neg he] at h
      exact List.mem_cons_of_mem _ (ih h)

theorem mem_delKey (l : List (κ × α)) (k : κ) (e : κ × α) :
    e ∈ delKey l k ↔ e ∈ l ∧ e.1 ≠ k := by
  simp [delKey, List.mem_filter]

theorem delKey_length_le (l : List (κ × α)) (k : κ) :
    (delKey l k).length ≤ l.length :=
  List.length_filter_le _ l

theorem lookupList_append_of_absent {l : List (κ × α)} {k : κ}
    (h : lookupList l k = none) (v : α) :
    lookupList (l ++ [(k, v)]) k = some v := by
  induction l with
  | nil => simp [lookupList]
  | cons e l ih =>
    rw [lookupList_cons] at h
    by_cases he : e.1 = k
    · simp [he] at h
    · rw [List.cons_append, lookupList_cons, if_neg he]
      exact ih (by rw [if_neg he] at h; exact h)

theorem lookupList_delKey_self (l : List (κ × α)) (k : κ) :
    lookupList (delKey l k) k = none := by
  rw [lookupList_eq_none_iff]
  intro e he
  exact ((mem_delKey l k e).mp he).2

theorem delKey_length_lt {l : List (κ × α)} {k : κ}
    (h : (lookupList l k).isSome = true) :
    (delKey l k).length < l.length := by
  induction l with
  | nil => simp [lookupList] at h
  | cons e l ih =>
    rw [lookupList_cons] at h
    by_cases he : e.1 = k
    · have : delKey (e :: l) k = delKey l k := by
        simp [delKey, List.filter_cons, he]
      rw [this]
      exact Nat.lt_succ_of_le (delKey_length_le l k)
    · have : delKey (e :: l) k = e :: delKey l k := by
        simp [delKey, List.filter_cons, he]
      rw [this]
      simp only [List.length_cons, Nat.succ_lt_succ_iff]
      exact ih (by rw [if_neg he] at h; exact h)

end CacheLemmas

section CacheLemmas2

variable {κ α : Type} [DecidableEq κ]

omit [DecidableEq κ] in
theorem any_congr_perm {ks ks₂ : List κ} (h : ks.Perm ks₂) (f : κ → Bool) :
    ks.any f = ks₂.any f := by
  cases hk : ks₂.any f
  · rw [List.any_eq_false] at hk ⊢
    intro x hx
    exact hk x (h.mem_iff.mp hx)
  · rw [List.any_eq_true] at hk ⊢
    obtain ⟨x, hx, hfx⟩ := hk
    exact ⟨x, h.mem_iff.mpr hx, hfx⟩

theorem foldl_delKey_eq_filter (ks : List κ) (l : List (κ × α)) :
    List.foldl delKey l ks = l.filter fun e => !(ks.any fun k => decide (e.1 = k)) := by
  induction ks generalizing l with
  | nil => simp
  | cons k ks ih =>
    rw [List.foldl_cons, ih, delKey, List.filter_filter]
    apply List.filter_congr
    intro x _
    simp [List.any_cons, Bool.not_or, Bool.and_comm]

theorem invalidate_cache_eq_filter (c : LRUCache κ α) (p : κ → Bool) :
    (c.invalidate p).cache = c.cache.filter fun e => !(p e.1) := by
  show List.foldl delKey c.cache ((c.cache.map Prod.fst).filter p) = _
  rw [foldl_delKey_eq_filter]
  apply List.filter_congr
  intro e he
  have hany : (((c.cache.map Prod.fst).filter p).any fun k => decide (e.1 = k)) = p e.1 := by
    cases hp : p e.1
    · rw [List.any_eq_false]
      intro k hk
      rw [List.mem_filter] at hk
      intro hek
      rw [decide_eq_true_eq] at hek
      rw [hek, hk.2] at hp
      cases hp
    · rw [List.any_eq_true]
      refine ⟨e.1, ?_, by simp⟩
      rw [List.mem_filter]
      exact ⟨List.mem_map_of_mem Prod.fst he, hp⟩
  rw [hany]

theorem get_snd_capacity (c : LRUCache κ α) (k : κ) :
    (c.get k).2.capacity = c.capacity := by
  unfold LRUCache.get
  cases h : lookupList c.cache k <;> simp

theorem put_capacity {c c₂ : LRUCache κ α} {k : κ} {v : α}
    (h : c.put k v = some c₂) : c₂.capacity = c.capacity := by
  unfold LRUCache.put at h
  split at h
  · cases h; rfl
  · split at h
    · split at h
      · cases h
      · cases h; rfl
    · cases h; rfl

theorem invalidate_capacity (c : LRUCache κ α) (p : κ → Bool) :
    (c.invalidate p).capacity = c.capacity := rfl

theorem put_isSome (c : LRUCache κ α) (k : κ) (v : α) (h : 1 ≤ c.capacity) :
    ∃ c₂, c.put k v = some c₂ := by
  unfold LRUCache.put
  split
  · exact ⟨_, rfl⟩
  · split
    · rename_i hfull
      match hc : c.cache with
      | [] =>
        rw [hc] at hfull
        simp only [List.length_nil, Int.natCast_zero, ge_iff_le] at hfull
        omega
      | e :: rest => exact ⟨_, rfl⟩
    · exact ⟨_, rfl⟩

theorem mem_get_snd {c : LRUCache κ α} {k : κ} {e : κ × α}
    (he : e ∈ (c.get k).2.cache) : e ∈ c.cache := by
  unfold LRUCache.get at he
  cases h : lookupList c.cache k with
  | none => rw [h] at he; exact he
  | some v =>
    rw [h] at he
    simp only [List.mem_append, List.mem_singleton] at he
    rcases he with he | he
    · exact ((mem_delKey c.cache k e).mp he).1
    · rw [he]; exact lookupList_mem h

theorem mem_put {c c₂ : LRUCache κ α} {k : κ} {v : α}
    (h : c.put k v = some c₂) : ∀ e ∈ c₂.cache, e ∈ c.cache ∨ e = (k, v) := by
  intro e he
  unfold LRUCache.put at h
  split at h
  · cases h
    simp only [List.mem_append, List.mem_singleton] at he
    rcases he with he | he
    · exact Or.inl ((mem_delKey c.cache k e).mp he).1
    · exact Or.inr he
  · split at h
    · split at h
      · cases h
      · cases h
        rename_i hc
        simp only [List.mem_append, List.mem_singleton] at he
        rcases he with he | he
        · exact Or.inl (by rw [hc]; exact List.mem_cons_of_mem _ he)
        · exact Or.inr he
    · cases h
      simp only [List.mem_append, List.mem_singleton] at he
      rcases he with he | he
      · exact Or.inl he
      · exact Or.inr he

theorem get_snd_length_le (c : LRUCache κ α) (k : κ) :
    (c.get k).2.cache.length ≤ c.cache.length := by
  unfold LRUCache.get
  cases h : lookupList c.cache k with
  | none => exact Nat.le_refl _
  | some v =>
    simp only [List.length_append, List.length_singleton]
    have := delKey_length_lt (l := c.cache) (k := k) (by rw [h]; rfl)
    omega

theorem put_length_le {c c₂ : LRUCache κ α} {k : κ} {v : α}
    (h : c.put k v = some c₂) (hcap : (c.cache.length : Int) ≤ c.capacity) :
    (c₂.cache.length : Int) ≤ c.capacity := by
  unfold LRUCache.put at h
  split at h
  · cases h
    rename_i hsome
    have := delKey_length_lt (l := c.cache) (k := k) hsome
    simp only [List.length_append, List.length_singleton]
    omega
  · split at h
    · split at h
      · cases h
      · cases h
        rename_i hc
        simp only [List.length_append, List.length_singleton]
        rw [hc] at hcap
        simp only [List.length_cons] at hcap
        omega
    · cases h
      rename_i hlt
      simp only [ge_iff_le, not_le] at hlt
      simp only [List.length_append, List.length_singleton]
      omega

theorem invalidate_length_le (c : LRUCache κ α) (p : κ → Bool) :
    (c.invalidate p).cache.length ≤ c.cache.length := by
  rw [invalidate_cache_eq_filter]
  exact List.length_filter_le _ _

end CacheLemmas2

/-- Invariant carried through every cache operation: the capacity field is
untouched and the entry count stays within it. -/
def CacheInv {κ α : Type} (cap : Int) (c : LRUCache κ α) : Prop :=
  c.capacity = cap ∧ (c.cache.length : Int) ≤ cap

theorem applyCacheOp_inv {κ α : Type} [DecidableEq κ] {cap : Int} {c : LRUCache κ α}
    (hcap : 1 ≤ cap) (hinv : CacheInv cap c) (op : CacheOp κ α) :
    ∃ c₂, applyCacheOp c op = some c₂ ∧ CacheInv cap c₂ := by
  obtain ⟨hc, hlen⟩ := hinv
  cases op with
  | getOp k =>
    refine ⟨(c.get k).2, rfl, ?_, ?_⟩
    · rw [get_snd_capacity, hc]
    · calc ((c.get k).2.cache.length : Int) ≤ (c.cache.length : Int) := by
            exact_mod_cast get_snd_length_le c k
        _ ≤ cap := hlen
  | putOp k v =>
    obtain ⟨c₂, hput⟩ := put_isSome c k v (by rw [hc]; exact hcap)
    refine ⟨c₂, hput, ?_, ?_⟩
    · rw [put_capacity hput, hc]
    · have := put_length_le hput (by rw [hc]; exact hlen)
      rw [hc] at this
      exact this
  | invalidateOp p =>
    refine ⟨c.invalidate p, rfl, ?_, ?_⟩
    · rw [invalidate_capacity, hc]
    · calc ((c.invalidate p).cache.length : Int) ≤ (c.cache.length : Int) := by
            exact_mod_cast invalidate_length_le c p
        _ ≤ cap := hlen

theorem runCacheOps_inv {κ α : Type} [DecidableEq κ] {cap : Int}
    (hcap : 1 ≤ cap) (ops : List (CacheOp κ α)) :
    ∀ c, CacheInv cap c → ∃ c₂, runCacheOps ops c = some c₂ ∧ CacheInv cap c₂ := by
  induction ops with
  | nil => intro c hinv; exact ⟨c, rfl, hinv⟩
  | cons op ops ih =>
    intro c hinv
    obtain ⟨c₂, hstep, hinv₂⟩ := applyCacheOp_inv hcap hinv op
    obtain ⟨c₃, hrun, hinv₃⟩ := ih c₂ hinv₂
    refine ⟨c₃, ?_, hinv₃⟩
    simp [runCacheOps, hstep, hrun]

/-- C3: for every `LRUCache` constructed with capacity ≥ 1 and every sequence
of `get`/`put`/`invalidate` calls, every call succeeds and the number of
stored entries is at most the capacity after every call completes (every
prefix of a call sequence is itself a call sequence, so the bound holds at
each intermediate state). -/
theorem C3_capacity_invariant {κ α : Type} [DecidableEq κ] (cap : Int)
    (hcap : 1 ≤ cap) (ops : List (CacheOp κ α)) :
    ∃ c₂, runCacheOps ops (LRUCache.init cap) = some c₂ ∧
      (c₂.cache.length : Int) ≤ cap ∧ c₂.capacity = cap := by
  obtain ⟨c₂, hrun, hc, hlen⟩ :=
    runCacheOps_inv hcap ops (LRUCache.init cap) ⟨rfl, by simp only [LRUCache.init, List.length_nil, Int.natCast_zero]; omega⟩
  exact ⟨c₂, hrun, hlen, hc⟩

theorem C3_capacity_invariant_witness :
    (1 : Int) ≤ 2 ∧
      ∃ c₂, runCacheOps
          [CacheOp.putOp 0 5, CacheOp.putOp 1 6, CacheOp.putOp 2 7,
           CacheOp.getOp 0, CacheOp.invalidateOp fun k => decide (k = 1)]
          (LRUCache.init (κ := Nat) (α := Int) 2) = some c₂ ∧
        (c₂.cache.length : Int) ≤ 2 ∧ c₂.capacity = 2 :=
  ⟨by decide, C3_capacity_invariant 2 (by decide) _⟩

/-- Invariant of every cache state reachable by the range-sum service over a
fixed array: each cached entry holds exactly the range sum of its key. -/
def RangeInv (a : List Int) (c : RangeCache) : Prop :=
  ∀ e ∈ c.cache, e.2 = some (range_sum_no_cache a e.1.1 e.1.2)

theorem range_sum_with_cache_spec (a : List Int) (L R : Nat) (c : RangeCache)
    (hcap : 1 ≤ c.capacity) (hinv : RangeInv a c) :
    ∃ c₂, range_sum_with_cache a L R c = some (range_sum_no_cache a L R, c₂) ∧
      RangeInv a c₂ ∧ c₂.capacity = c.capacity := by
  unfold range_sum_with_cache
  cases hl : lookupList c.cache (L, R) with
  | none =>
    have hget : c.get (L, R) = (none, c) := by unfold LRUCache.get; rw [hl]
    rw [hget]
    obtain ⟨c₂, hput⟩ := put_isSome c (L, R) (some (((a.drop L).take (R + 1 - L)).sum)) hcap
    simp only [Option.join, hput]
    refine ⟨c₂, rfl, ?_, by rw [put_capacity hput]⟩
    intro e he
    rcases mem_put hput e he with hmem | heq
    · exact hinv e hmem
    · rw [heq]; rfl
  | some w =>
    have hget : c.get (L, R) =
        (some w, ⟨c.capacity, delKey c.cache (L, R) ++ [((L, R), w)]⟩) := by
      unfold LRUCache.get; rw [hl]
    have hmem := lookupList_mem hl
    have hval := hinv _ hmem
    simp only at hval
    cases w with
    | none => cases hval
    | some v =>
      have hveq : v = range_sum_no_cache a L R := by
        injection hval with hval
      rw [hget]
      refine ⟨⟨c.capacity, delKey c.cache (L, R) ++ [((L, R), some v)]⟩, ?_, ?_, rfl⟩
      · rw [hveq]; rfl
      · intro e he
        simp only [List.mem_append, List.mem_singleton] at he
        rcases he with he | he
        · exact hinv e ((mem_delKey c.cache (L, R) e).mp he).1
        · rw [he]
          simp only [hveq]

theorem runQueries_spec (a : List Int) (qs : List (Nat × Nat)) :
    ∀ c : RangeCache, 1 ≤ c.capacity → RangeInv a c →
      ∃ c₂, runQueries a qs c =
          some (qs.map fun q => range_sum_no_cache a q.1 q.2, c₂) ∧
        RangeInv a c₂ ∧ c₂.capacity = c.capacity := by
  induction qs with
  | nil => intro c _ hinv; exact ⟨c, rfl, hinv, rfl⟩
  | cons q qs ih =>
    intro c hcap hinv
    obtain ⟨c₂, hq, hinv₂, hc₂⟩ := range_sum_with_cache_spec a q.1 q.2 c hcap hinv
    obtain ⟨c₃, hqs, hinv₃, hc₃⟩ := ih c₂ (by rw [hc₂]; exact hcap) hinv₂
    refine ⟨c₃, ?_, hinv₃, by rw [hc₃, hc₂]⟩
    simp [runQueries, hq, hqs]

/-- C1: over a fixed array (no `update_array` calls), for every sequence of
in-bounds range queries and every cache capacity ≥ 1, the cached path
`range_sum_with_cache` returns for every query exactly the value of the
direct recomputation `range_sum_no_cache`. -/
theorem C1_cache_no_cache_equivalence (a : List Int) (qs : List (Nat × Nat))
    (cap : Int) (hcap : 1 ≤ cap)
    (_hqs : ∀ q ∈ qs, q.1 ≤ q.2 ∧ q.2 < a.length) :
    ∃ c₂, runQueries a qs (LRUCache.init cap) =
      some (qs.map fun q => range_sum_no_cache a q.1 q.2, c₂) := by
  obtain ⟨c₂, hrun, -, -⟩ :=
    runQueries_spec a qs (LRUCache.init cap) hcap (by intro e he; cases he)
  exact ⟨c₂, hrun⟩

theorem C1_cache_no_cache_equivalence_witness :
    (1 : Int) ≤ 1 ∧
      (∀ q ∈ [((0 : Nat), (2 : Nat)), (1, 1), (0, 2)],
        q.1 ≤ q.2 ∧ q.2 < [(1 : Int), 2, 3].length) ∧
      ∃ c₂, runQueries [(1 : Int), 2, 3] [(0, 2), (1, 1), (0, 2)]
          (LRUCache.init 1) =
        some ([(0, 2), (1, 1), (0, 2)].map
          fun q => range_sum_no_cache [(1 : Int), 2, 3] q.1 q.2, c₂) :=
  ⟨by decide, by decide,
    C1_cache_no_cache_equivalence [(1 : Int), 2, 3] [(0, 2), (1, 1), (0, 2)] 1
      (by decide) (by decide)⟩

section CacheLemmas3

variable {κ α : Type} [DecidableEq κ]

theorem lookupList_append_left {l₁ : List (κ × α)} {k : κ} {v : α}
    (h : lookupList l₁ k = some v) (l₂ : List (κ × α)) :
    lookupList (l₁ ++ l₂) k = some v := by
  induction l₁ with
  | nil => simp [lookupList] at h
  | cons e l₁ ih =>
    rw [lookupList_cons] at h
    rw [List.cons_append, lookupList_cons]
    by_cases he : e.1 = k
    · rw [if_pos he] at h ⊢; exact h
    · rw [if_neg he] at h ⊢; exact ih h

theorem lookupList_append_right {l₁ : List (κ × α)} {k : κ}
    (h : lookupList l₁ k = none) (l₂ : List (κ × α)) :
    lookupList (l₁ ++ l₂) k = lookupList l₂ k := by
  induction l₁ with
  | nil => rfl
  | cons e l₁ ih =>
    rw [lookupList_cons] at h
    rw [List.cons_append, lookupList_cons]
    by_cases he : e.1 = k
    · rw [if_pos he] at h; cases h
    · rw [if_neg he] at h ⊢; exact ih h

theorem lookupList_delKey_ne (l : List (κ × α)) {k k₂ : κ} (h : k₂ ≠ k) :
    lookupList (delKey l k) k₂ = lookupList l k₂ := by
  induction l with
  | nil => rfl
  | cons e l ih =>
    by_cases he : e.1 = k
    · have : delKey (e :: l) k = delKey l k := by simp [delKey, List.filter_cons, he]
      rw [this, ih, lookupList_cons, if_neg (by rw [he]; exact fun hh => h hh.symm)]
    · have : delKey (e :: l) k = e :: delKey l k := by simp [delKey, List.filter_cons, he]
      rw [this, lookupList_cons, lookupList_cons, ih]

theorem get_hit {c : LRUCache κ α} {k : κ} {w : α}
    (h : lookupList c.cache k = some w) :
    c.get k = (some w, ⟨c.capacity, delKey c.cache k ++ [(k, w)]⟩) := by
  unfold LRUCache.get
  rw [h]

theorem put_existing {c : LRUCache κ α} {k : κ} (v : α)
    (h : c.containsKey k = true) :
    c.put k v = some ⟨c.capacity, delKey c.cache k ++ [(k, v)]⟩ := by
  unfold LRUCache.containsKey at h
  unfold LRUCache.put
  rw [if_pos h]

theorem put_new_full {c : LRUCache κ α} {k : κ} (v : α)
    (habs : c.containsKey k = false)
    (hfull : (c.cache.length : Int) ≥ c.capacity) :
    c.put k v = match c.cache with
      | [] => none
      | _ :: rest => some ⟨c.capacity, rest ++ [(k, v)]⟩ := by
  unfold LRUCache.containsKey at habs
  unfold LRUCache.put
  rw [if_neg (by rw [habs]; simp), if_pos hfull]

theorem put_new_room {c : LRUCache κ α} {k : κ} (v : α)
    (habs : c.containsKey k = false)
    (hroom : ¬ (c.cache.length : Int) ≥ c.capacity) :
    c.put k v = some ⟨c.capacity, c.cache ++ [(k, v)]⟩ := by
  unfold LRUCache.containsKey at habs
  unfold LRUCache.put
  rw [if_neg (by rw [habs]; simp), if_neg hroom]

theorem containsKey_move_to_end {c : LRUCache κ α} {k : κ} {v : α}
    (h : c.containsKey k = true) (k₂ : κ) :
    (LRUCache.mk c.capacity (delKey c.cache k ++ [(k, v)])).containsKey k₂ =
      c.containsKey k₂ := by
  unfold LRUCache.containsKey at h ⊢
  by_cases hk : k₂ = k
  · rw [hk, lookupList_append_right (lookupList_delKey_self c.cache k),
      lookupList_cons]
    simp only [if_pos rfl, Option.isSome_some]
    exact h.symm
  · cases hl : lookupList (delKey c.cache k) k₂ with
    | none =>
      rw [lookupList_append_right hl, lookupList_cons,
        if_neg (fun hh : k = k₂ => hk hh.symm)]
      rw [lookupList_delKey_ne c.cache hk] at hl
      rw [lookupList_nil, hl]
    | some w =>
      rw [lookupList_append_left hl]
      rw [lookupList_delKey_ne c.cache hk] at hl
      rw [hl]

theorem any_filtered_keys {l : List (κ × α)} {p : κ → Bool} {e : κ × α}
    (he : e ∈ l) :
    (((l.map Prod.fst).filter p).any fun k => decide (e.1 = k)) = p e.1 := by
  cases hp : p e.1
  · rw [List.any_eq_false]
    intro k hk
    rw [List.mem_filter] at hk
    intro hek
    rw [decide_eq_true_eq] at hek
    rw [hek, hk.2] at hp
    cases hp
  · rw [List.any_eq_true]
    refine ⟨e.1, ?_, by simp⟩
    rw [List.mem_filter]
    exact ⟨List.mem_map_of_mem Prod.fst he, hp⟩

theorem lookupList_filter_of_pred (l : List (κ × α)) (q : κ × α → Bool) (k : κ)
    (h : ∀ e : κ × α, e.1 = k → q e = true) :
    lookupList (l.filter q) k = lookupList l k := by
  induction l with
  | nil => rfl
  | cons e l ih =>
    by_cases he : e.1 = k
    · rw [List.filter_cons, if_pos (h e he), lookupList_cons,
        lookupList_cons, if_pos he, if_pos he]
    · cases hq : q e
      · rw [List.filter_cons, if_neg (by rw [hq]; simp), ih, lookupList_cons,
          if_neg he]
      · rw [List.filter_cons, if_pos hq, lookupList_cons,
          if_neg he, lookupList_cons, if_neg he, ih]

end CacheLemmas3

/-- C4: with the head of the recency list being the least-recently-used
entry: (a) a `put` of a new key into a full cache (entry count = capacity,
capacity ≥ 1) evicts exactly the least-recently-used entry — the head — and
appends the new pair at the tail; (b) a successful `get` refreshes recency,
moving the hit entry to the tail with its value unchanged; (c) a `put` of an
already-present key overwrites its value, moves it to the tail and leaves
the set of present keys unchanged (no eviction); (d) concretely, with
capacity 2: after `put A`, `put B`, `get A`, `put C` the cache holds exactly
`A` and `C` in that recency order — `B` was evicted. -/
theorem C4_lru_eviction_and_recency {κ α : Type} [DecidableEq κ]
    (c : LRUCache κ α) (k : κ) (v : α) :
    (c.containsKey k = false → 1 ≤ c.capacity →
      (c.cache.length : Int) = c.capacity →
      c.cache ≠ [] ∧ c.put k v = some ⟨c.capacity, c.cache.tail ++ [(k, v)]⟩) ∧
    (∀ w, lookupList c.cache k = some w →
      c.get k = (some w, ⟨c.capacity, delKey c.cache k ++ [(k, w)]⟩)) ∧
    (c.containsKey k = true →
      c.put k v = some ⟨c.capacity, delKey c.cache k ++ [(k, v)]⟩ ∧
      lookupList (delKey c.cache k ++ [(k, v)]) k = some v ∧
      ∀ k₂, (LRUCache.mk c.capacity (delKey c.cache k ++ [(k, v)])).containsKey k₂ =
        c.containsKey k₂) ∧
    ((LRUCache.init 2 : LRUCache Nat Int).put 1 10 = some ⟨2, [(1, 10)]⟩ ∧
      (LRUCache.mk 2 [((1 : Nat), (10 : Int))]).put 2 20 =
        some ⟨2, [(1, 10), (2, 20)]⟩ ∧
      (LRUCache.mk 2 [((1 : Nat), (10 : Int)), (2, 20)]).get 1 =
        (some 10, ⟨2, [(2, 20), (1, 10)]⟩) ∧
      (LRUCache.mk 2 [((2 : Nat), (20 : Int)), (1, 10)]).put 3 30 =
        some ⟨2, [(1, 10), (3, 30)]⟩ ∧
      (LRUCache.mk 2 [((1 : Nat), (10 : Int)), (3, 30)]).containsKey 2 = false ∧
      (LRUCache.mk 2 [((1 : Nat), (10 : Int)), (3, 30)]).containsKey 1 = true ∧
      (LRUCache.mk 2 [((1 : Nat), (10 : Int)), (3, 30)]).containsKey 3 = true) := by
  refine ⟨?_, ?_, ?_, by decide⟩
  · intro habs hcap hfull
    match hc : c.cache with
    | [] =>
      exfalso
      rw [hc] at hfull
      simp only [List.length_nil, Int.natCast_zero] at hfull
      omega
    | lru :: rest =>
      refine ⟨by simp, ?_⟩
      rw [put_new_full v habs (le_of_eq hfull.symm), hc]
      rfl
  · intro w hw
    exact get_hit hw
  · intro hmem
    refine ⟨put_existing v hmem, ?_, containsKey_move_to_end hmem⟩
    exact lookupList_append_of_absent (lookupList_delKey_self c.cache k) v

theorem C4_lru_eviction_and_recency_witness :
    ((LRUCache.mk 2 [((1 : Nat), (10 : Int)), (2, 20)]).put 3 30 =
        some ⟨2, [(2, 20), (3, 30)]⟩) ∧
    ((LRUCache.mk 2 [((1 : Nat), (10 : Int)), (2, 20)]).get 1 =
        (some 10, ⟨2, [(2, 20), (1, 10)]⟩)) ∧
    ((LRUCache.mk 2 [((1 : Nat), (10 : Int)), (2, 20)]).put 1 99 =
        some ⟨2, [(2, 20), (1, 99)]⟩) :=
  ⟨((C4_lru_eviction_and_recency (LRUCache.mk 2 [((1 : Nat), (10 : Int)), (2, 20)])
      3 30).1 (by decide) (by decide) (by decide)).2,
    (C4_lru_eviction_and_recency (LRUCache.mk 2 [((1 : Nat), (10 : Int)), (2, 20)])
      1 99).2.1 10 (by decide),
    ((C4_lru_eviction_and_recency (LRUCache.mk 2 [((1 : Nat), (10 : Int)), (2, 20)])
      1 99).2.2.1 (by decide)).1⟩

/-- C5: after `invalidate p`: every key satisfying `p` is absent; every key
not satisfying `p` yields the very same lookup result as before (value and
presence unchanged); the surviving entries form a sublist of the original
recency list, so their relative recency order is untouched; and deleting the
matched keys in any traversal order (any permutation of the collected
`keys_to_remove`) produces the same final state. -/
theorem C5_invalidate_correct {κ α : Type} [DecidableEq κ]
    (c : LRUCache κ α) (p : κ → Bool) :
    (∀ k, p k = true → (c.invalidate p).containsKey k = false) ∧
    (∀ k, p k = false →
      lookupList (c.invalidate p).cache k = lookupList c.cache k) ∧
    (c.invalidate p).cache.Sublist c.cache ∧
    (c.invalidate p).capacity = c.capacity ∧
    (∀ ks : List κ, ks.Perm ((c.cache.map Prod.fst).filter p) →
      List.foldl delKey c.cache ks = (c.invalidate p).cache) := by
  refine ⟨?_, ?_, ?_, rfl, ?_⟩
  · intro k hp
    unfold LRUCache.containsKey
    rw [invalidate_cache_eq_filter]
    have : lookupList (c.cache.filter fun e => !(p e.1)) k = none := by
      rw [lookupList_eq_none_iff]
      intro e he hek
      rw [List.mem_filter] at he
      rw [hek, hp] at he
      simp at he
    rw [this]
    rfl
  · intro k hp
    rw [invalidate_cache_eq_filter]
    exact lookupList_filter_of_pred c.cache _ k
      (fun e hek => by rw [hek, hp]; rfl)
  · rw [invalidate_cache_eq_filter]
    exact List.filter_sublist c.cache
  · intro ks hperm
    rw [foldl_delKey_eq_filter, invalidate_cache_eq_filter]
    apply List.filter_congr
    intro e he
    rw [any_congr_perm hperm fun k => decide (e.1 = k), any_filtered_keys he]

theorem C5_invalidate_correct_witness :
    ((LRUCache.mk 3 [((0 : Nat), (10 : Int)), (1, 20), (2, 30)]).invalidate
        (fun k => decide (k = 1))).containsKey 1 = false ∧
    lookupList ((LRUCache.mk 3 [((0 : Nat), (10 : Int)), (1, 20), (2, 30)]).invalidate
        (fun k => decide (k = 1))).cache 2 =
      lookupList [((0 : Nat), (10 : Int)), (1, 20), (2, 30)] 2 ∧
    List.foldl delKey [((0 : Nat), (10 : Int)), (1, 20), (2, 30)] [1] =
      ((LRUCache.mk 3 [((0 : Nat), (10 : Int)), (1, 20), (2, 30)]).invalidate
        (fun k => decide (k = 1))).cache :=
  ⟨(C5_invalidate_correct (LRUCache.mk 3 [((0 : Nat), (10 : Int)), (1, 20), (2, 30)])
      (fun k => decide (k = 1))).1 1 (by decide),
    (C5_invalidate_correct (LRUCache.mk 3 [((0 : Nat), (10 : Int)), (1, 20), (2, 30)])
      (fun k => decide (k = 1))).2.1 2 (by decide),
    (C5_invalidate_correct (LRUCache.mk 3 [((0 : Nat), (10 : Int)), (1, 20), (2, 30)])
      (fun k => decide (k = 1))).2.2.2.2 [1] (by decide)⟩

theorem option_join_some {β : Type} (x : Option β) : (some x).join = x := rfl

theorem lookupList_put_self {κ α : Type} [DecidableEq κ]
    {c c₂ : LRUCache κ α} {k : κ} {v : α} (h : c.put k v = some c₂) :
    lookupList c₂.cache k = some v := by
  unfold LRUCache.put at h
  split at h
  · cases h
    exact lookupList_append_of_absent (lookupList_delKey_self _ _) v
  · rename_i h₁
    have hnone : lookupList c.cache k = none := by
      cases hl : lookupList c.cache k with
      | none => rfl
      | some w => rw [hl] at h₁; cases h₁ rfl
    split at h
    · split at h
      · cases h
      · cases h
        rename_i heq
        rw [heq, lookupList_cons] at hnone
        split at hnone
        · cases hnone
        · exact lookupList_append_of_absent hnone v
    · cases h
      exact lookupList_append_of_absent hnone v

theorem range_sum_with_cache_stored_none (a : List Int) (L R : Nat)
    (c₃ : RangeCache) (hl : lookupList c₃.cache (L, R) = some none) :
    range_sum_with_cache a L R c₃ =
      some (range_sum_no_cache a L R,
        ⟨c₃.capacity,
          delKey (delKey c₃.cache (L, R) ++ [((L, R), none)]) (L, R) ++
            [((L, R), some (range_sum_no_cache a L R))]⟩) := by
  have hmoved : lookupList (delKey c₃.cache (L, R) ++ [((L, R), (none : Option Int))])
      (L, R) = some none :=
    lookupList_append_of_absent (lookupList_delKey_self _ _) none
  have h₂ := put_existing
    (c := (⟨c₃.capacity, delKey c₃.cache (L, R) ++ [((L, R), none)]⟩ : RangeCache))
    (some (((a.drop L).take (R + 1 - L)).sum))
    (by unfold LRUCache.containsKey; rw [hmoved]; rfl)
  unfold range_sum_with_cache
  rw [get_hit hl]
  simp only [option_join_some]
  rw [h₂]
  rfl

/-- C10: a stored `None` is indistinguishable from absence through `get`:
after `put k None` (capacity ≥ 1 so the `put` succeeds) the key is present
(`__contains__` is true and the entry occupies a slot counted by `__len__`),
yet the value `get` hands back to the caller is `None`, exactly as for an
absent key; consequently `range_sum_with_cache` treats a cached `None` as a
miss: it recomputes the sum, returns it, and overwrites the entry. -/
theorem C10_stored_none_is_a_miss (c : RangeCache) (k : Nat × Nat)
    (hcap : 1 ≤ c.capacity) :
    ∃ c₂, c.put k none = some c₂ ∧
      c₂.containsKey k = true ∧
      (c₂.get k).1.join = none ∧
      (∀ (c₀ : RangeCache) (k₀ : Nat × Nat), c₀.containsKey k₀ = false →
        (c₀.get k₀).1.join = none) ∧
      (c.containsKey k = false → ¬ (c.cache.length : Int) ≥ c.capacity →
        c₂.cache.length = c.cache.length + 1) ∧
      (∀ (a : List Int) (L R : Nat) (c₃ : RangeCache),
        lookupList c₃.cache (L, R) = some none →
        ∃ c₄, range_sum_with_cache a L R c₃ =
            some (range_sum_no_cache a L R, c₄) ∧
          lookupList c₄.cache (L, R) = some (some (range_sum_no_cache a L R))) := by
  obtain ⟨c₂, hput⟩ := put_isSome c k none hcap
  have hlook := lookupList_put_self hput
  refine ⟨c₂, hput, ?_, ?_, ?_, ?_, ?_⟩
  · unfold LRUCache.containsKey
    rw [hlook]
    rfl
  · rw [get_hit hlook]
    rfl
  · intro c₀ k₀ habs
    unfold LRUCache.containsKey at habs
    have : lookupList c₀.cache k₀ = none := by
      cases hl : lookupList c₀.cache k₀ with
      | none => rfl
      | some w => rw [hl] at habs; cases habs
    unfold LRUCache.get
    rw [this]
    rfl
  · intro habs hroom
    rw [put_new_room none habs hroom] at hput
    cases hput
    simp
  · intro a L R c₃ hl
    refine ⟨_, range_sum_with_cache_stored_none a L R c₃ hl, ?_⟩
    exact lookupList_append_of_absent (lookupList_delKey_self _ _) _

theorem C10_stored_none_is_a_miss_witness :
    (1 : Int) ≤ (LRUCache.mk 2 [(((0 : Nat), (1 : Nat)), some (5 : Int))] :
        RangeCache).capacity ∧
      ∃ c₂, (LRUCache.mk 2 [(((0 : Nat), (1 : Nat)), some (5 : Int))] :
          RangeCache).put (2, 3) none = some c₂ ∧
        c₂.containsKey (2, 3) = true ∧
        (c₂.get (2, 3)).1.join = none ∧
        (∀ (c₀ : RangeCache) (k₀ : Nat × Nat), c₀.containsKey k₀ = false →
          (c₀.get k₀).1.join = none) ∧
        ((LRUCache.mk 2 [(((0 : Nat), (1 : Nat)), some (5 : Int))] :
            RangeCache).containsKey (2, 3) = false →
          ¬ (([(((0 : Nat), (1 : Nat)), some (5 : Int))].length : Int)) ≥ 2 →
          c₂.cache.length = [(((0 : Nat), (1 : Nat)), some (5 : Int))].length + 1) ∧
        (∀ (a : List Int) (L R : Nat) (c₃ : RangeCache),
          lookupList c₃.cache (L, R) = some none →
          ∃ c₄, range_sum_with_cache a L R c₃ =
              some (range_sum_no_cache a L R, c₄) ∧
            lookupList c₄.cache (L, R) = some (some (range_sum_no_cache a L R))) :=
  ⟨by decide,
    C10_stored_none_is_a_miss
      (LRUCache.mk 2 [(((0 : Nat), (1 : Nat)), some (5 : Int))]) (2, 3) (by decide)⟩

section LimiterLemmas

theorem getMsgs_nil (u : String) : getMsgs [] u = [] := rfl

theorem getMsgs_cons (e : String × List ℚ) (s : List (String × List ℚ)) (u : String) :
    getMsgs (e :: s) u = if e.1 = u then e.2 else getMsgs s u := by
  by_cases h : e.1 = u <;> simp [getMsgs, List.find?_cons, h]

theorem getMsgs_setMsgs_self (s : List (String × List ℚ)) (u : String) (l : List ℚ) :
    getMsgs (setMsgs s u l) u = l := by
  induction s with
  | nil => simp [setMsgs, getMsgs_cons]
  | cons e s ih =>
    rw [setMsgs]
    by_cases h : e.1 = u
    · rw [if_pos h, getMsgs_cons, if_pos rfl]
    · rw [if_neg h, getMsgs_cons, if_neg h, ih]

theorem getMsgs_setMsgs_ne (s : List (String × List ℚ)) {u v : String}
    (h : v ≠ u) (l : List ℚ) :
    getMsgs (setMsgs s u l) v = getMsgs s v := by
  induction s with
  | nil =>
    rw [setMsgs, getMsgs_cons, if_neg (fun hh : u = v => h hh.symm), getMsgs_nil]
  | cons e s ih =>
    rw [setMsgs]
    by_cases he : e.1 = u
    · rw [if_pos he, getMsgs_cons, if_neg (fun hh : u = v => h hh.symm),
        getMsgs_cons, if_neg (by rw [he]; exact fun hh : u = v => h hh.symm)]
    · rw [if_neg he, getMsgs_cons, getMsgs_cons, ih]

theorem clean_user (st : SlidingWindowRateLimiter) (u : String) (t : ℚ) :
    getMsgs (clean_old_messages st u t).user_messages u =
      (getMsgs st.user_messages u).filter
        fun timestamp => decide (timestamp > t - st.window_size) :=
  getMsgs_setMsgs_self _ _ _

theorem clean_other (st : SlidingWindowRateLimiter) {u v : String}
    (h : v ≠ u) (t : ℚ) :
    getMsgs (clean_old_messages st u t).user_messages v =
      getMsgs st.user_messages v :=
  getMsgs_setMsgs_ne _ h _

theorem clean_window_size (st : SlidingWindowRateLimiter) (u : String) (t : ℚ) :
    (clean_old_messages st u t).window_size = st.window_size := rfl

theorem clean_max_messages (st : SlidingWindowRateLimiter) (u : String) (t : ℚ) :
    (clean_old_messages st u t).max_messages = st.max_messages := rfl

end LimiterLemmas

/-- C2, counterexample: the constructors perform no validation.
`LRUCache(0)` is accepted and produces an instance with capacity `0` and an
empty store — the degeneracy surfaces only later, when the first `put` hits
`popitem(last=False)` on the empty `OrderedDict` (a `KeyError`, modelled by
`none`).  `SlidingWindowRateLimiter(0, 0)` is likewise accepted, and a
limiter with `max_messages = 0` simply never allows a message.  This refutes
the claim that such constructions are rejected at construction time. -/
theorem C2_counterexample_construction_accepted :
    (LRUCache.init 0 : LRUCache Nat Int) = ⟨0, []⟩ ∧
    (LRUCache.init 0 : LRUCache Nat Int).put 1 5 = none ∧
    SlidingWindowRateLimiter.init 0 0 = ⟨0, 0, []⟩ ∧
    (can_send_message (SlidingWindowRateLimiter.init 10 0) "u" 0).1 = false := by
  refine ⟨rfl, by decide, rfl, by decide⟩

/-- C2, amended: neither constructor validates its arguments.  `LRUCache`
stores any capacity (including ≤ 0) and starts empty; a `put` of a fresh key
into a cache with `capacity ≤ 0` then fails (`KeyError` from
`popitem(last=False)` on the empty dictionary).  `SlidingWindowRateLimiter`
stores any `window_size`/`max_messages`, and with `max_messages ≤ 0` no
message is ever allowed: the degenerate instances are produced, not
rejected. -/
theorem C2_amended_no_validation {κ α : Type} [DecidableEq κ]
    (capacity : Int) (w : ℚ) (m : Int) (k : κ) (v : α) (u : String) (t : ℚ) :
    ((LRUCache.init capacity : LRUCache κ α).capacity = capacity ∧
      (LRUCache.init capacity : LRUCache κ α).cache = []) ∧
    ((SlidingWindowRateLimiter.init w m).window_size = w ∧
      (SlidingWindowRateLimiter.init w m).max_messages = m) ∧
    (capacity ≤ 0 → (LRUCache.init capacity : LRUCache κ α).put k v = none) ∧
    (m ≤ 0 → (can_send_message (SlidingWindowRateLimiter.init w m) u t).1 = false) := by
  refine ⟨⟨rfl, rfl⟩, ⟨rfl, rfl⟩, ?_, ?_⟩
  · intro hcap
    unfold LRUCache.put
    rw [if_neg (by rw [show lookupList (LRUCache.init (κ := κ) (α := α) capacity).cache k = none from rfl]; simp),
      if_pos (by show ((0 : Nat) : Int) ≥ capacity; omega)]
    rfl
  · intro hm
    show decide _ = false
    rw [decide_eq_false_iff_not]
    intro hlt
    have hmsgs : getMsgs (clean_old_messages (SlidingWindowRateLimiter.init w m) u t).user_messages u = [] := by
      rw [clean_user]
      rfl
    rw [hmsgs, clean_max_messages,
      show (SlidingWindowRateLimiter.init w m).max_messages = m from rfl] at hlt
    simp only [List.length_nil, Int.natCast_zero] at hlt
    omega

theorem C2_amended_no_validation_witness :
    ((LRUCache.init 0 : LRUCache Nat Int).capacity = 0 ∧
      (LRUCache.init 0 : LRUCache Nat Int).cache = []) ∧
    ((SlidingWindowRateLimiter.init (-1) 0).window_size = -1 ∧
      (SlidingWindowRateLimiter.init (-1) 0).max_messages = 0) ∧
    ((0 : Int) ≤ 0 → (LRUCache.init 0 : LRUCache Nat Int).put 7 8 = none) ∧
    ((0 : Int) ≤ 0 →
      (can_send_message (SlidingWindowRateLimiter.init (-1) 0) "u" 3).1 = false) :=
  C2_amended_no_validation 0 (-1) 0 7 8 "u" 3

theorem foldl_min_spec (xs : List ℚ) (x : ℚ) :
    xs.foldl min x ∈ x :: xs ∧ ∀ ts ∈ x :: xs, xs.foldl min x ≤ ts := by
  induction xs generalizing x with
  | nil => simp
  | cons y ys ih =>
    obtain ⟨hmem, hle⟩ := ih (min x y)
    constructor
    · rw [List.foldl_cons]
      rcases List.mem_cons.mp hmem with h | h
      · rcases min_choice x y with hc | hc
        · rw [h, hc]; exact List.mem_cons_self _ _
        · rw [h, hc]; exact List.mem_cons_of_mem _ (List.mem_cons_self _ _)
      · exact List.mem_cons_of_mem _ (List.mem_cons_of_mem _ h)
    · intro ts hts
      rw [List.foldl_cons]
      rcases List.mem_cons.mp hts with h | hts₂
      · rw [h]
        calc ys.foldl min (min x y) ≤ min x y := hle _ (List.mem_cons_self _ _)
          _ ≤ x := min_le_left x y
      · rcases List.mem_cons.mp hts₂ with h | h
        · rw [h]
          calc ys.foldl min (min x y) ≤ min x y := hle _ (List.mem_cons_self _ _)
            _ ≤ y := min_le_right x y
        · exact hle ts (List.mem_cons_of_mem _ h)

theorem pyMin_spec {l : List ℚ} (h : l ≠ []) :
    ∃ mn, pyMin l = some mn ∧ mn ∈ l ∧ ∀ ts ∈ l, mn ≤ ts := by
  match l, h with
  | x :: xs, _ =>
    obtain ⟨hmem, hle⟩ := foldl_min_spec xs x
    exact ⟨xs.foldl min x, rfl, hmem, hle⟩

/-- C6: `can_send_message` first removes every stored timestamp `ts` of the
user with `ts ≤ now - window_size` (a timestamp exactly at the window
boundary is removed) and keeps all others, then returns true iff the
remaining count is strictly below `max_messages`.  Concretely, with window
10 and limit 1, after a message recorded at t = 0 the check is false at
t = 9.999, true at t = 10.001, and already true at the exact boundary
t = 10. -/
theorem C6_can_send_prunes_then_checks (st : SlidingWindowRateLimiter)
    (u : String) (now : ℚ) :
    ((can_send_message st u now).1 = true ↔
      ((getMsgs (can_send_message st u now).2.user_messages u).length : Int) <
        st.max_messages) ∧
    (∀ ts : ℚ, ts ∈ getMsgs (can_send_message st u now).2.user_messages u ↔
      ts ∈ getMsgs st.user_messages u ∧ ¬ ts ≤ now - st.window_size) ∧
    ((record_message (SlidingWindowRateLimiter.init 10 1) "u" 0 0).1 = true ∧
      (can_send_message (record_message (SlidingWindowRateLimiter.init 10 1)
        "u" 0 0).2 "u" (9999 / 1000)).1 = false ∧
      (can_send_message (record_message (SlidingWindowRateLimiter.init 10 1)
        "u" 0 0).2 "u" (10001 / 1000)).1 = true ∧
      (can_send_message (record_message (SlidingWindowRateLimiter.init 10 1)
        "u" 0 0).2 "u" 10).1 = true) := by
  refine ⟨?_, ?_, ?_⟩
  · show decide (((getMsgs (clean_old_messages st u now).user_messages u).length : Int) <
      (clean_old_messages st u now).max_messages) = true ↔ _
    rw [clean_max_messages, decide_eq_true_iff]
    exact Iff.rfl
  · intro ts
    rw [show getMsgs (can_send_message st u now).2.user_messages u =
        (getMsgs st.user_messages u).filter
          (fun timestamp => decide (timestamp > now - st.window_size))
      from clean_user st u now]
    rw [List.mem_filter]
    simp [not_le]
  · norm_num [record_message, can_send_message, clean_old_messages, getMsgs,
      setMsgs, SlidingWindowRateLimiter.init, List.filter_cons, List.find?_cons]

/-- C7: `time_until_next_allowed` (for a sane policy, `max_messages ≥ 1`)
never errors: it prunes, returns `0.0` when the retained count is strictly
under the limit, and otherwise `max(0.0, oldest + window_size - now)` where
`oldest` is the minimum retained timestamp; the result is never negative.
Concretely, with window 10, limit 1 and one message recorded at t = 0, the
call at t = 3 returns exactly 7. -/
theorem C7_wait_time_spec (st : SlidingWindowRateLimiter) (u : String)
    (now : ℚ) (hm : 1 ≤ st.max_messages) :
    ∃ r st₂, time_until_next_allowed st u now = some (r, st₂) ∧
      st₂ = clean_old_messages st u now ∧
      0 ≤ r ∧
      (((getMsgs st₂.user_messages u).length : Int) < st.max_messages → r = 0) ∧
      (st.max_messages ≤ ((getMsgs st₂.user_messages u).length : Int) →
        ∃ oldest, oldest ∈ getMsgs st₂.user_messages u ∧
          (∀ ts ∈ getMsgs st₂.user_messages u, oldest ≤ ts) ∧
          r = max 0 (oldest + st.window_size - now)) ∧
      (time_until_next_allowed
          (record_message (SlidingWindowRateLimiter.init 10 1) "u" 0 0).2
          "u" 3).map Prod.fst = some 7 := by
  have hconc : (time_until_next_allowed
      (record_message (SlidingWindowRateLimiter.init 10 1) "u" 0 0).2
      "u" 3).map Prod.fst = some 7 := by
    norm_num [record_message, can_send_message, clean_old_messages, getMsgs,
      setMsgs, SlidingWindowRateLimiter.init, time_until_next_allowed, pyMin,
      List.filter_cons, List.find?_cons, max_def]
  by_cases hlt : ((getMsgs (clean_old_messages st u now).user_messages u).length : Int) <
      (clean_old_messages st u now).max_messages
  · have heq : time_until_next_allowed st u now =
        some (0, clean_old_messages st u now) := by
      unfold time_until_next_allowed
      rw [if_pos hlt]
    refine ⟨0, _, heq, rfl, le_refl 0, fun _ => rfl, ?_, hconc⟩
    intro hge
    rw [clean_max_messages] at hlt
    omega
  · have hge : st.max_messages ≤
        ((getMsgs (clean_old_messages st u now).user_messages u).length : Int) := by
      rw [clean_max_messages] at hlt
      omega
    have hne : getMsgs (clean_old_messages st u now).user_messages u ≠ [] := by
      intro hnil
      rw [hnil] at hge
      simp only [List.length_nil, Int.natCast_zero] at hge
      omega
    obtain ⟨mn, hpm, hmem, hle⟩ := pyMin_spec hne
    have heq : time_until_next_allowed st u now =
        some (max 0 (mn + st.window_size - now), clean_old_messages st u now) := by
      unfold time_until_next_allowed
      rw [if_neg hlt, hpm]
      rfl
    refine ⟨_, _, heq, rfl, le_max_left 0 _, ?_, ?_, hconc⟩
    · intro h₀
      exfalso
      rw [clean_max_messages] at hlt
      omega
    · intro _
      exact ⟨mn, hmem, hle, rfl⟩

theorem C7_wait_time_spec_witness :
    (1 : Int) ≤ (SlidingWindowRateLimiter.mk 10 1 [("u", [0])]).max_messages ∧
      ∃ r st₂, time_until_next_allowed
          (SlidingWindowRateLimiter.mk 10 1 [("u", [0])]) "u" 3 = some (r, st₂) ∧
        st₂ = clean_old_messages (SlidingWindowRateLimiter.mk 10 1 [("u", [0])]) "u" 3 ∧
        0 ≤ r ∧
        (((getMsgs st₂.user_messages "u").length : Int) <
            (SlidingWindowRateLimiter.mk 10 1 [("u", [0])]).max_messages → r = 0) ∧
        ((SlidingWindowRateLimiter.mk 10 1 [("u", [0])]).max_messages ≤
            ((getMsgs st₂.user_messages "u").length : Int) →
          ∃ oldest, oldest ∈ getMsgs st₂.user_messages "u" ∧
            (∀ ts ∈ getMsgs st₂.user_messages "u", oldest ≤ ts) ∧
            r = max 0 (oldest +
              (SlidingWindowRateLimiter.mk 10 1 [("u", [0])]).window_size - 3)) ∧
        (time_until_next_allowed
            (record_message (SlidingWindowRateLimiter.init 10 1) "u" 0 0).2
            "u" 3).map Prod.fst = some 7 :=
  ⟨by decide, C7_wait_time_spec (SlidingWindowRateLimiter.mk 10 1 [("u", [0])])
    "u" 3 (by decide)⟩

/-- C8, counterexample to the single-clock-reading claim: `record_message`
reads the clock twice — once inside `can_send_message` (pruning and
permission), once when appending.  Starting from a user with one timestamp
`0` under policy (window 10, limit 2), an execution whose two reads are 5
and then 11 accepts and leaves the list `[0, 11]`; but no single reading
`t` reproduces this: with both reads at 5 the list becomes `[0, 5]`, and
with both reads at 11 the pruning pass removes `0`, leaving `[11]`.  So the
appended timestamp is not "the operation's single now". -/
theorem C8_counterexample_two_clock_reads :
    ((record_message (record_message (SlidingWindowRateLimiter.init 10 2)
        "u" 0 0).2 "u" 5 11).1 = true ∧
      getMsgs (record_message (record_message (SlidingWindowRateLimiter.init 10 2)
        "u" 0 0).2 "u" 5 11).2.user_messages "u" = [0, 11]) ∧
    getMsgs (record_message (record_message (SlidingWindowRateLimiter.init 10 2)
      "u" 0 0).2 "u" 5 5).2.user_messages "u" = [0, 5] ∧
    getMsgs (record_message (record_message (SlidingWindowRateLimiter.init 10 2)
      "u" 0 0).2 "u" 11 11).2.user_messages "u" = [11] := by
  refine ⟨⟨?_, ?_⟩, ?_, ?_⟩ <;>
    norm_num [record_message, can_send_message, clean_old_messages, getMsgs,
      setMsgs, SlidingWindowRateLimiter.init, List.filter_cons, List.find?_cons]

/-- C8, amended: `record_message` re-checks the permission internally by
calling `can_send_message` with its first clock reading `t₁`: when the
post-pruning count (pruned at `t₁`) is at or above `max_messages` it returns
false and the state is exactly the pruned state (nothing appended); when
under the limit it returns true and appends its second clock reading `t₂`
(the code reads the clock once inside `can_send_message` and once more when
appending, so the checked time and the appended timestamp are distinct
reads); other users' lists are never touched. -/
theorem C8_amended_record_rechecks (st : SlidingWindowRateLimiter)
    (u : String) (t₁ t₂ : ℚ) :
    ((record_message st u t₁ t₂).1 = (can_send_message st u t₁).1) ∧
    (st.max_messages ≤
        ((getMsgs (clean_old_messages st u t₁).user_messages u).length : Int) →
      record_message st u t₁ t₂ = (false, clean_old_messages st u t₁)) ∧
    (((getMsgs (clean_old_messages st u t₁).user_messages u).length : Int) <
        st.max_messages →
      (record_message st u t₁ t₂).1 = true ∧
      getMsgs (record_message st u t₁ t₂).2.user_messages u =
        getMsgs (clean_old_messages st u t₁).user_messages u ++ [t₂] ∧
      ∀ v, v ≠ u → getMsgs (record_message st u t₁ t₂).2.user_messages v =
        getMsgs st.user_messages v) := by
  refine ⟨?_, ?_, ?_⟩
  · unfold record_message
    cases hc : (can_send_message st u t₁).1 <;> simp [hc]
  · intro hge
    have hfalse : (can_send_message st u t₁).1 = false := by
      show decide _ = false
      rw [decide_eq_false_iff_not, clean_max_messages]
      omega
    simp [record_message, hfalse]
    rfl
  · intro hlt
    have htrue : (can_send_message st u t₁).1 = true := by
      show decide _ = true
      rw [decide_eq_true_iff, clean_max_messages]
      exact hlt
    simp only [record_message, htrue, if_true]
    refine ⟨trivial, ?_, ?_⟩
    · exact getMsgs_setMsgs_self _ _ _
    · intro v hv
      rw [getMsgs_setMsgs_ne _ hv]
      exact clean_other st hv t₁

theorem C8_amended_record_rechecks_witness :
    ((SlidingWindowRateLimiter.mk 10 2 [("u", [0])]).max_messages ≤
        ((getMsgs (clean_old_messages (SlidingWindowRateLimiter.mk 10 2
          [("u", [0]), ("w", [3])]) "u" 5).user_messages "u").length : Int) →
      record_message (SlidingWindowRateLimiter.mk 10 2 [("u", [0]), ("w", [3])])
          "u" 5 11 =
        (false, clean_old_messages (SlidingWindowRateLimiter.mk 10 2
          [("u", [0]), ("w", [3])]) "u" 5)) ∧
    ((record_message (SlidingWindowRateLimiter.mk 10 2 [("u", [0]), ("w", [3])])
        "u" 5 11).1 = true ∧
      getMsgs (record_message (SlidingWindowRateLimiter.mk 10 2
          [("u", [0]), ("w", [3])]) "u" 5 11).2.user_messages "u" =
        getMsgs (clean_old_messages (SlidingWindowRateLimiter.mk 10 2
          [("u", [0]), ("w", [3])]) "u" 5).user_messages "u" ++ [11] ∧
      ∀ v, v ≠ "u" →
        getMsgs (record_message (SlidingWindowRateLimiter.mk 10 2
            [("u", [0]), ("w", [3])]) "u" 5 11).2.user_messages v =
          getMsgs [("u", [(0 : ℚ)]), ("w", [3])] v) := by
  constructor
  · intro h
    exact (C8_amended_record_rechecks (SlidingWindowRateLimiter.mk 10 2
      [("u", [0]), ("w", [3])]) "u" 5 11).2.1 h
  · exact (C8_amended_record_rechecks (SlidingWindowRateLimiter.mk 10 2
      [("u", [0]), ("w", [3])]) "u" 5 11).2.2 (by
        norm_num [clean_old_messages, getMsgs, setMsgs, List.filter_cons,
          List.find?_cons])

/-- Invariant carried through every limiter call: the policy field is
untouched and every user's stored timestamp list stays within the limit. -/
def LimiterInv (m : Int) (st : SlidingWindowRateLimiter) : Prop :=
  st.max_messages = m ∧
  ∀ u, ((getMsgs st.user_messages u).length : Int) ≤ m

theorem clean_inv {m : Int} {st : SlidingWindowRateLimiter}
    (hinv : LimiterInv m st) (u : String) (t : ℚ) :
    LimiterInv m (clean_old_messages st u t) := by
  obtain ⟨hmax, hlen⟩ := hinv
  refine ⟨by rw [clean_max_messages, hmax], ?_⟩
  intro v
  by_cases hv : v = u
  · subst hv
    rw [clean_user]
    calc (((getMsgs st.user_messages v).filter
          fun timestamp => decide (timestamp > t - st.window_size)).length : Int)
        ≤ ((getMsgs st.user_messages v).length : Int) := by
          exact_mod_cast List.length_filter_le _ _
      _ ≤ m := hlen v
  · rw [clean_other st hv t]
    exact hlen v

theorem applyLimiterOp_inv {m : Int} {st : SlidingWindowRateLimiter}
    (hm : 1 ≤ m) (hinv : LimiterInv m st) (op : LimiterOp) :
    ∃ st₂, applyLimiterOp st op = some st₂ ∧ LimiterInv m st₂ := by
  cases op with
  | canSendOp u t => exact ⟨_, rfl, clean_inv hinv u t⟩
  | getCountOp u t => exact ⟨_, rfl, clean_inv hinv u t⟩
  | recordOp u t₁ t₂ =>
    refine ⟨(record_message st u t₁ t₂).2, rfl, ?_⟩
    cases hc : (can_send_message st u t₁).1
    · have hstate : (record_message st u t₁ t₂).2 = clean_old_messages st u t₁ := by
        simp [record_message, hc]
        rfl
      rw [hstate]
      exact clean_inv hinv u t₁
    · have hlt : ((getMsgs (clean_old_messages st u t₁).user_messages u).length : Int) <
          m := by
        rw [show (can_send_message st u t₁).1 = decide
          (((getMsgs (clean_old_messages st u t₁).user_messages u).length : Int) <
            (clean_old_messages st u t₁).max_messages) from rfl,
          decide_eq_true_eq, clean_max_messages, hinv.1] at hc
        exact hc
      have hstate : (record_message st u t₁ t₂).2 =
          { clean_old_messages st u t₁ with
            user_messages := setMsgs (clean_old_messages st u t₁).user_messages u
              (getMsgs (clean_old_messages st u t₁).user_messages u ++ [t₂]) } := by
        simp only [record_message, hc, if_true]
        rfl
      rw [hstate]
      obtain ⟨hmax, hlen⟩ := clean_inv hinv u t₁
      refine ⟨hmax, ?_⟩
      intro v
      by_cases hv : v = u
      · subst hv
        show ((getMsgs (setMsgs (clean_old_messages st v t₁).user_messages v
          (getMsgs (clean_old_messages st v t₁).user_messages v ++ [t₂])) v).length : Int) ≤ m
        rw [getMsgs_setMsgs_self, List.length_append, List.length_singleton]
        push_cast
        omega
      · show ((getMsgs (setMsgs (clean_old_messages st u t₁).user_messages u
          (getMsgs (clean_old_messages st u t₁).user_messages u ++ [t₂])) v).length : Int) ≤ m
        rw [getMsgs_setMsgs_ne _ hv]
        exact hlen v
  | timeUntilOp u t =>
    by_cases hlt : ((getMsgs (clean_old_messages st u t).user_messages u).length : Int) <
        (clean_old_messages st u t).max_messages
    · refine ⟨clean_old_messages st u t, ?_, clean_inv hinv u t⟩
      show (time_until_next_allowed st u t).map Prod.snd = _
      unfold time_until_next_allowed
      rw [if_pos hlt]
      rfl
    · have hne : getMsgs (clean_old_messages st u t).user_messages u ≠ [] := by
        intro hnil
        rw [clean_max_messages, hinv.1, hnil] at hlt
        simp only [List.length_nil, Int.natCast_zero, not_lt] at hlt
        omega
      obtain ⟨mn, hpm, -, -⟩ := pyMin_spec hne
      refine ⟨clean_old_messages st u t, ?_, clean_inv hinv u t⟩
      show (time_until_next_allowed st u t).map Prod.snd = _
      unfold time_until_next_allowed
      rw [if_neg hlt, hpm]
      rfl

theorem runLimiterOps_inv {m : Int} (hm : 1 ≤ m) (ops : List LimiterOp) :
    ∀ st, LimiterInv m st →
      ∃ st₂, runLimiterOps ops st = some st₂ ∧ LimiterInv m st₂ := by
  induction ops with
  | nil => intro st hinv; exact ⟨st, rfl, hinv⟩
  | cons op ops ih =>
    intro st hinv
    obtain ⟨st₂, hstep, hinv₂⟩ := applyLimiterOp_inv hm hinv op
    obtain ⟨st₃, hrun, hinv₃⟩ := ih st₂ hinv₂
    refine ⟨st₃, ?_, hinv₃⟩
    simp [runLimiterOps, hstep, hrun]

/-- C9: for a limiter constructed with `max_messages ≥ 1` and any sequence
of `can_send_message` / `record_message` / `time_until_next_allowed` /
`get_message_count` calls (each with its own clock readings), every call
succeeds and every user's stored timestamp list has length at most
`max_messages` after every call: only `record_message` appends, and only
after checking that the post-pruning count is strictly below the limit.
(The bound is proved for all clock-reading sequences, in particular the
non-decreasing ones; every prefix of a call sequence is itself a call
sequence, so the bound holds after each call.) -/
theorem C9_per_user_count_bound (w : ℚ) (m : Int) (hm : 1 ≤ m)
    (ops : List LimiterOp) :
    ∃ st₂, runLimiterOps ops (SlidingWindowRateLimiter.init w m) = some st₂ ∧
      ∀ u, ((getMsgs st₂.user_messages u).length : Int) ≤ m := by
  obtain ⟨st₂, hrun, -, hlen⟩ :=
    runLimiterOps_inv hm ops (SlidingWindowRateLimiter.init w m)
      ⟨rfl, fun u => by show ((getMsgs [] u).length : Int) ≤ m; rw [getMsgs_nil]; simp; omega⟩
  exact ⟨st₂, hrun, hlen⟩

theorem C9_per_user_count_bound_witness :
    (1 : Int) ≤ 1 ∧
      ∃ st₂, runLimiterOps
          [LimiterOp.recordOp "u" 0 0, LimiterOp.recordOp "u" 1 1,
           LimiterOp.canSendOp "u" 2, LimiterOp.timeUntilOp "u" 3,
           LimiterOp.getCountOp "u" 4]
          (SlidingWindowRateLimiter.init 10 1) = some st₂ ∧
        ∀ u, ((getMsgs st₂.user_messages u).length : Int) ≤ 1 :=
  ⟨by decide, C9_per_user_count_bound 10 1 (by decide) _⟩
